import Mathlib

set_option maxHeartbeats 1000000

/-! Shallow embedding of the core transform of the Excel Worksheet Unlocker
(src/main.py, function remove_excel_protection, lines 23 to 74), together with
proofs about its marker-removal, copying, message and error behaviour. -/

/-- Characters of the literal tag-open sequence of the protection marker, taken
from the regular expression at src/main.py line 36. -/
def tagOpenLit : List Char := ("<sheetProtection").data

/-- Characters of the worksheets directory path used to classify entries
(src/main.py line 46). -/
def worksheetsDir : List Char := ("xl/worksheets/").data

/-- Boolean test that the second list begins with the first list. -/
def startsWithL : List Char → List Char → Bool
  | [], _ => true
  | _ :: _, [] => false
  | p :: ps, c :: cs => p == c && startsWithL ps cs

/-- Remainder of the text after the first self-closing terminator, searching the
way the lazy regex does: at each position first try the two-character terminator,
otherwise consume one character, failing on a newline (the dot of the pattern
does not match a newline without DOTALL) or at the end of the text. -/
def afterTerm : List Char → Option (List Char)
  | [] => none
  | [_] => none
  | c1 :: c2 :: cs =>
    if c1 = '/' ∧ c2 = '>' then some cs
    else if c1 = '\n' then none
    else afterTerm (c2 :: cs)

/-- Fuel-indexed scan implementing protection_regex.subn from src/main.py
line 51: left to right, at each position try to match the marker (tag-open
literal, then the shortest span of characters ending at the terminator); on a
match drop the matched span and continue after it, otherwise keep the character
and move on.  Fuel at least the length of the text is always enough. -/
def subnGo : Nat → List Char → List Char × Nat
  | _, [] => ([], 0)
  | 0, s => (s, 0)
  | fuel + 1, c :: cs =>
    if startsWithL tagOpenLit (c :: cs) then
      match afterTerm ((c :: cs).drop tagOpenLit.length) with
      | some r => ((subnGo fuel r).1, (subnGo fuel r).2 + 1)
      | none => (c :: (subnGo fuel cs).1, (subnGo fuel cs).2)
    else
      (c :: (subnGo fuel cs).1, (subnGo fuel cs).2)

/-- Result of protection_regex.subn applied to a text: the text with every
marker occurrence removed, and the number of occurrences removed. -/
def protection_subn (s : List Char) : List Char × Nat := subnGo s.length s

/-- UTF-8 encoding of one character, as produced by str.encode at
src/main.py line 57. -/
def utf8EncodeChar (c : Char) : List Nat :=
  let n := c.toNat
  if n < 128 then [n]
  else if n < 2048 then [192 + n / 64, 128 + n % 64]
  else if n < 65536 then [224 + n / 4096, 128 + n / 64 % 64, 128 + n % 64]
  else [240 + n / 262144, 128 + n / 4096 % 64, 128 + n / 64 % 64, 128 + n % 64]

/-- UTF-8 encoding of a text. -/
def utf8Encode (s : List Char) : List Nat := (s.map utf8EncodeChar).flatten

/-- One step of strict UTF-8 decoding: the first character encoded at the head
of the byte list together with the remaining bytes, or none when the head is a
malformed, overlong, surrogate or out-of-range sequence. -/
def utf8DecodeOne : List Nat → Option (Char × List Nat)
  | [] => none
  | b :: bs =>
    if b < 128 then some (Char.ofNat b, bs)
    else if b < 194 then none
    else if b < 224 then
      match bs with
      | b1 :: bs1 =>
        if 128 ≤ b1 ∧ b1 < 192 then
          some (Char.ofNat ((b - 192) * 64 + (b1 - 128)), bs1)
        else none
      | [] => none
    else if b < 240 then
      match bs with
      | b1 :: b2 :: bs2 =>
        if 128 ≤ b1 ∧ b1 < 192 ∧ 128 ≤ b2 ∧ b2 < 192 then
          if 2048 ≤ (b - 224) * 4096 + (b1 - 128) * 64 + (b2 - 128) ∧
              ((b - 224) * 4096 + (b1 - 128) * 64 + (b2 - 128) < 55296 ∨
                57343 < (b - 224) * 4096 + (b1 - 128) * 64 + (b2 - 128)) then
            some (Char.ofNat ((b - 224) * 4096 + (b1 - 128) * 64 + (b2 - 128)), bs2)
          else none
        else none
      | _ => none
    else if b < 245 then
      match bs with
      | b1 :: b2 :: b3 :: bs3 =>
        if 128 ≤ b1 ∧ b1 < 192 ∧ 128 ≤ b2 ∧ b2 < 192 ∧ 128 ≤ b3 ∧ b3 < 192 then
          if 65536 ≤ (b - 240) * 262144 + (b1 - 128) * 4096 + (b2 - 128) * 64 + (b3 - 128) ∧
              (b - 240) * 262144 + (b1 - 128) * 4096 + (b2 - 128) * 64 + (b3 - 128) < 1114112 then
            some (Char.ofNat ((b - 240) * 262144 + (b1 - 128) * 4096 +
              (b2 - 128) * 64 + (b3 - 128)), bs3)
          else none
        else none
      | _ => none
    else none

/-- Fuel-indexed loop decoding characters one at a time; fuel at least the
length of the byte list is always enough, each step consumes at least one
byte. -/
def utf8DecodeGo : Nat → List Nat → Option (List Char)
  | _, [] => some []
  | 0, _ :: _ => none
  | fuel + 1, b :: bs =>
    match utf8DecodeOne (b :: bs) with
    | some (c, rest) => (utf8DecodeGo fuel rest).map (fun r => c :: r)
    | none => none

/-- Strict UTF-8 decoding of a byte list, as performed by bytes.decode at
src/main.py line 48: none on any malformed, overlong, surrogate or
out-of-range sequence. -/
def utf8Decode (l : List Nat) : Option (List Char) := utf8DecodeGo l.length l

/-- An archive member: a path name together with a byte payload. -/
structure ZipEntry where
  filename : List Char
  payload : List Nat
deriving DecidableEq

/-- Payload returned by zin.read for a name (src/main.py line 43): the payload
of the last entry bearing that name, because the zipfile name index maps each
name to its last entry; empty if the name is absent (unreachable here, every
name read comes from the entry list itself). -/
def zinRead (zin : List ZipEntry) (name : List Char) : List Nat :=
  match zin.foldl (fun acc e => if e.filename = name then some e.payload else acc) none with
  | some b => b
  | none => []

/-- Status message emitted for a worksheet entry in which at least one marker
occurrence was removed (src/main.py line 55). -/
def removedMsgText (name : List Char) : List Char :=
  ("Found and removed protection in: ").data ++ name

/-- Final status message of a run in which protection was found
(src/main.py line 66). -/
def successMsgText (out : List Char) : List Char :=
  ("Success! Unprotected file saved as:\n").data ++ out

/-- Final status message of a run in which no protection was found
(src/main.py line 69). -/
def noProtMsgText : List Char :=
  ("No worksheet protection was found in the file.").data

/-- Status message emitted by the final exception handler
(src/main.py line 73). -/
def errorMsgText (detail : List Char) : List Char :=
  ("An error occurred: ").data ++ detail

/-- Modelled from the spec: the text of the exception raised when the source
cannot be opened as a valid archive.  The exact text is produced by the runtime
(zipfile.BadZipFile) and is not part of the repository source. -/
def openFailureDetail : List Char := ("File is not a zip file").data

/-- Modelled from the spec: the text of the exception raised when a worksheet
entry cannot be decoded as UTF-8.  The exact text is produced by the runtime
(UnicodeDecodeError) and is not part of the repository source. -/
def decodeFailureDetail : List Char := ("invalid utf-8 byte sequence").data

/-- Outcome of the entry loop of src/main.py lines 41 to 63: either every entry
was processed (written entries, per-entry messages, final value of the
protection_found_in_any_sheet flag), or a decode exception interrupted the loop
after writing some entries and emitting some messages. -/
inductive LoopOut where
  | ok (written : List ZipEntry) (messages : List (List Char)) (found : Bool)
  | err (written : List ZipEntry) (messages : List (List Char))
deriving DecidableEq

/-- The entry loop of src/main.py lines 41 to 63, processing the remaining
entries of the source archive zin in order: read the payload by name, rewrite
worksheet entries whose decoded text contains a marker occurrence, copy every
other entry byte for byte. -/
def processEntries (zin : List ZipEntry) : List ZipEntry → LoopOut
  | [] => .ok [] [] false
  | item :: rest =>
    if startsWithL worksheetsDir item.filename then
      match utf8Decode (zinRead zin item.filename) with
      | none => .err [] []
      | some xml =>
        if 0 < (protection_subn xml).2 then
          match processEntries zin rest with
          | .ok w m _ =>
            .ok (⟨item.filename, utf8Encode (protection_subn xml).1⟩ :: w)
              (removedMsgText item.filename :: m) true
          | .err w m =>
            .err (⟨item.filename, utf8Encode (protection_subn xml).1⟩ :: w)
              (removedMsgText item.filename :: m)
        else
          match processEntries zin rest with
          | .ok w m f => .ok (⟨item.filename, zinRead zin item.filename⟩ :: w) m f
          | .err w m => .err (⟨item.filename, zinRead zin item.filename⟩ :: w) m
    else
      match processEntries zin rest with
      | .ok w m f => .ok (⟨item.filename, zinRead zin item.filename⟩ :: w) m f
      | .err w m => .err (⟨item.filename, zinRead zin item.filename⟩ :: w) m

/-- Outcome of a whole invocation: either the destination archive was completed
(with the final value of the protection flag), or the run failed, leaving no
destination (source open failure) or a partial destination (later failure). -/
inductive TransformOutcome where
  | completed (found : Bool) (output : List ZipEntry)
  | failed (partialOutput : Option (List ZipEntry))
deriving DecidableEq

/-- Observable behaviour of one call of remove_excel_protection: the outcome,
the status messages passed to the callback in order, and whether an exception
escaped to the caller (always false, the final except clause of src/main.py
lines 72 to 74 catches every exception). -/
structure TransformResult where
  outcome : TransformOutcome
  messages : List (List Char)
  raised : Bool
deriving DecidableEq

/-- The function remove_excel_protection of src/main.py lines 23 to 74.  The
source archive is given as none when it cannot be opened as a valid zip file,
some entries otherwise; output_filename only flows into the success message. -/
def remove_excel_protection (zin : Option (List ZipEntry)) (output_filename : List Char) :
    TransformResult :=
  match zin with
  | none => ⟨.failed none, [errorMsgText openFailureDetail], false⟩
  | some entries =>
    match processEntries entries entries with
    | .ok w m f =>
      ⟨.completed f w,
        m ++ [if f then successMsgText output_filename else noProtMsgText], false⟩
    | .err w m => ⟨.failed (some w), m ++ [errorMsgText decodeFailureDetail], false⟩

/-- A position matches the marker pattern when the tag-open literal starts
there and a terminator is reachable from it without crossing a newline. -/
def headMatches (s : List Char) : Bool :=
  startsWithL tagOpenLit s && (afterTerm (s.drop tagOpenLit.length)).isSome

/-- The pattern matches at no position of g, even looking into the text rest
that follows g. -/
def GapFree (g rest : List Char) : Prop :=
  ∀ t ∈ g.tails, t ≠ [] → headMatches (t ++ rest) = false

/-- m is exactly one marker occurrence: it starts with the tag-open literal and
the first reachable terminator ends precisely at its end (shortest match). -/
def IsMarker (m : List Char) : Prop :=
  startsWithL tagOpenLit m = true ∧ afterTerm (m.drop tagOpenLit.length) = some []

instance (g rest : List Char) : Decidable (GapFree g rest) := by
  unfold GapFree
  infer_instance

instance (m : List Char) : Decidable (IsMarker m) := by
  unfold IsMarker
  infer_instance

/-- Declarative decomposition of a text into the non-overlapping marker
occurrences found by a left-to-right shortest-match scan, alternating with the
gaps around them: the text is gap, marker, gap, marker, ..., gap, each marker
is a shortest occurrence, and no occurrence starts inside any gap. -/
inductive ScanSplit : List Char → List (List Char) → List (List Char) → Prop where
  | last (g : List Char) : GapFree g [] → ScanSplit g [g] []
  | cons (g m rest : List Char) (gaps marks : List (List Char)) :
      GapFree g (m ++ rest) → IsMarker m → ScanSplit rest gaps marks →
      ScanSplit (g ++ m ++ rest) (g :: gaps) (m :: marks)

theorem afterTerm_length : ∀ l r, afterTerm l = some r → r.length + 2 ≤ l.length
  | [], r, h => by simp [afterTerm] at h
  | [c], r, h => by simp [afterTerm] at h
  | c1 :: c2 :: cs, r, h => by
    rw [afterTerm] at h
    split at h
    · cases h
      simp
    · split at h
      · exact absurd h (by simp)
      · have ih := afterTerm_length (c2 :: cs) r h
        simp only [List.length_cons] at ih ⊢
        omega

theorem subnGo_nil (f : Nat) : subnGo f [] = ([], 0) := by
  cases f <;> rfl

theorem subnGo_fuel : ∀ f g (s : List Char), s.length ≤ f → s.length ≤ g →
    subnGo f s = subnGo g s
  | _, _, [], _, _ => by rw [subnGo_nil, subnGo_nil]
  | 0, _, c :: cs, hf, _ => by simp at hf
  | _ + 1, 0, c :: cs, _, hg => by simp at hg
  | f + 1, g + 1, c :: cs, hf, hg => by
    have hf1 : cs.length ≤ f := by simpa using hf
    have hg1 : cs.length ≤ g := by simpa using hg
    rw [subnGo, subnGo]
    by_cases hs : startsWithL tagOpenLit (c :: cs) = true
    · rw [if_pos hs, if_pos hs]
      cases hA : afterTerm ((c :: cs).drop tagOpenLit.length) with
      | some r =>
        have hr := afterTerm_length _ _ hA
        rw [List.length_drop] at hr
        simp only [List.length_cons] at hr
        have hrl : r.length ≤ cs.length := by omega
        simp only [hA]
        rw [subnGo_fuel f g r (by omega) (by omega)]
      | none =>
        simp only [hA]
        rw [subnGo_fuel f g cs hf1 hg1]
    · rw [if_neg hs, if_neg hs, subnGo_fuel f g cs hf1 hg1]

theorem protection_subn_nil : protection_subn [] = ([], 0) := rfl

theorem headMatches_false_step {c : Char} {cs : List Char}
    (h : headMatches (c :: cs) = false) :
    protection_subn (c :: cs) = (c :: (protection_subn cs).1, (protection_subn cs).2) := by
  unfold protection_subn
  rw [show (c :: cs).length = cs.length + 1 from rfl, subnGo]
  unfold headMatches at h
  by_cases hs : startsWithL tagOpenLit (c :: cs) = true
  · rw [if_pos hs]
    rw [hs, Bool.true_and] at h
    cases hA : afterTerm ((c :: cs).drop tagOpenLit.length) with
    | some r => rw [hA] at h; simp at h
    | none => simp only [hA]
  · rw [if_neg hs]

theorem marker_step {s r : List Char} (hs : startsWithL tagOpenLit s = true)
    (hA : afterTerm (s.drop tagOpenLit.length) = some r) :
    protection_subn s = ((protection_subn r).1, (protection_subn r).2 + 1) := by
  cases s with
  | nil => exact absurd hs (by decide)
  | cons c cs =>
    unfold protection_subn
    rw [show (c :: cs).length = cs.length + 1 from rfl, subnGo, if_pos hs]
    simp only [hA]
    have hr := afterTerm_length _ _ hA
    rw [List.length_drop] at hr
    simp only [List.length_cons] at hr
    rw [subnGo_fuel cs.length r.length r (by omega) (le_refl _)]

theorem startsWithL_append {p m : List Char} (h : startsWithL p m = true)
    (r : List Char) : startsWithL p (m ++ r) = true := by
  induction p generalizing m with
  | nil => rfl
  | cons a ps ih =>
    cases m with
    | nil => exact absurd h (by simp [startsWithL])
    | cons b ms =>
      simp only [startsWithL, Bool.and_eq_true, beq_iff_eq] at h ⊢
      exact ⟨h.1, ih h.2⟩

theorem startsWithL_length {p s : List Char} (h : startsWithL p s = true) :
    p.length ≤ s.length := by
  induction p generalizing s with
  | nil => simp
  | cons a ps ih =>
    cases s with
    | nil => exact absurd h (by simp [startsWithL])
    | cons b bs =>
      simp only [startsWithL, Bool.and_eq_true] at h
      simpa using ih h.2

theorem startsWithL_eq_append {p s : List Char} (h : startsWithL p s = true) :
    s = p ++ s.drop p.length := by
  induction p generalizing s with
  | nil => simp
  | cons a ps ih =>
    cases s with
    | nil => exact absurd h (by simp [startsWithL])
    | cons b bs =>
      simp only [startsWithL, Bool.and_eq_true, beq_iff_eq] at h
      simpa [h.1] using ih h.2

theorem startsWithL_self_append (p r : List Char) : startsWithL p (p ++ r) = true := by
  induction p with
  | nil => rfl
  | cons a ps ih => simpa [startsWithL] using ih

theorem afterTerm_append : ∀ x r : List Char, afterTerm x = some [] →
    afterTerm (x ++ r) = some r
  | [], r, h => by simp [afterTerm] at h
  | [c], r, h => by simp [afterTerm] at h
  | c1 :: c2 :: cs, r, h => by
    rw [afterTerm] at h
    rw [List.cons_append, List.cons_append, afterTerm]
    split at h
    next hc =>
      cases h
      rw [if_pos hc]
      simp
    next hc =>
      split at h
      · exact absurd h (by simp)
      next hnl =>
        rw [if_neg hc, if_neg hnl]
        exact afterTerm_append (c2 :: cs) r h

/-- A gap in which the pattern matches at no position passes through the scan
unchanged, and the scan continues on the text that follows it. -/
theorem gapFree_subn {s2 : List Char} : ∀ g : List Char, GapFree g s2 →
    protection_subn (g ++ s2) =
      (g ++ (protection_subn s2).1, (protection_subn s2).2) := by
  intro g hg
  induction g with
  | nil => simp
  | cons c g3 ih3 =>
    have hhm : headMatches (c :: (g3 ++ s2)) = false := by
      have := hg (c :: g3) (by simp) (by simp)
      simpa using this
    have hrest : GapFree g3 s2 := fun t ht hne =>
      hg t (by rw [List.tails_cons]; exact List.mem_cons_of_mem _ ht) hne
    rw [List.cons_append, headMatches_false_step hhm, ih3 hrest]
    simp

/-- Any valid decomposition of a text determines the result of the subn scan:
the removal result is the concatenation of the gaps, and the count is the
number of marker occurrences. -/
theorem scanSplit_subn {s : List Char} {gaps marks : List (List Char)}
    (h : ScanSplit s gaps marks) :
    protection_subn s = (gaps.flatten, marks.length) := by
  induction h with
  | last g hg =>
    have h2 := gapFree_subn g hg
    rw [List.append_nil] at h2
    rw [h2]
    simp [protection_subn_nil]
  | cons g m rest gaps marks hg hm hrec ih =>
    have hsw : startsWithL tagOpenLit (m ++ rest) = true := startsWithL_append hm.1 rest
    have hdrop : (m ++ rest).drop tagOpenLit.length = m.drop tagOpenLit.length ++ rest :=
      List.drop_append_of_le_length (startsWithL_length hm.1)
    have hA : afterTerm ((m ++ rest).drop tagOpenLit.length) = some rest := by
      rw [hdrop]
      exact afterTerm_append _ _ hm.2
    rw [List.append_assoc, gapFree_subn g hg, marker_step hsw hA, ih]
    simp

theorem afterTerm_split : ∀ l r : List Char, afterTerm l = some r →
    ∃ mid, l = mid ++ '/' :: '>' :: r ∧ afterTerm (mid ++ (['/', '>'])) = some []
  | [], r, h => by simp [afterTerm] at h
  | [c], r, h => by simp [afterTerm] at h
  | c1 :: c2 :: cs, r, h => by
    rw [afterTerm] at h
    split at h
    next hc =>
      cases h
      exact ⟨[], by simp [hc.1, hc.2], by decide⟩
    next hc =>
      split at h
      · exact absurd h (by simp)
      next hnl =>
        obtain ⟨mid, heq, hterm2⟩ := afterTerm_split (c2 :: cs) r h
        refine ⟨c1 :: mid, by rw [List.cons_append, ← heq], ?_⟩
        cases mid with
        | nil =>
          simp only [List.cons_append, List.nil_append]
          rw [afterTerm, if_neg (fun hq => absurd hq.2 (by decide)), if_neg hnl]
          decide
        | cons d mid2 =>
          have hd : c2 = d := by
            rw [List.cons_append] at heq
            injection heq
          rw [List.cons_append, List.cons_append, afterTerm]
          rw [if_neg (hd ▸ hc), if_neg hnl]
          rw [List.cons_append] at hterm2
          exact hterm2

theorem scanSplit_cons {c : Char} {t : List Char} {gaps marks : List (List Char)}
    (hhm : headMatches (c :: t) = false) (h : ScanSplit t gaps marks) :
    ∃ gaps2, ScanSplit (c :: t) gaps2 marks := by
  cases h with
  | last =>
    rename_i hg
    refine ⟨[c :: t], ScanSplit.last (c :: t) ?_⟩
    intro u hu hne
    rw [List.tails_cons] at hu
    rcases List.mem_cons.mp hu with hu | hu
    · subst hu
      simpa using hhm
    · exact hg u hu hne
  | cons g m rest gaps2 marks2 hg hm hsub =>
    refine ⟨(c :: g) :: gaps2, ?_⟩
    have hsh : c :: (g ++ m ++ rest) = (c :: g) ++ m ++ rest := by simp
    rw [hsh]
    refine ScanSplit.cons (c :: g) m rest gaps2 marks2 ?_ hm hsub
    intro u hu hne
    rw [List.tails_cons] at hu
    rcases List.mem_cons.mp hu with hu | hu
    · subst hu
      rw [List.cons_append]
      simpa using hhm
    · exact hg u hu hne

/-- Every text has a scan decomposition, so the decomposition hypothesis of the
removal theorems is never vacuous. -/
theorem scanSplit_exists (s : List Char) : ∃ gaps marks, ScanSplit s gaps marks := by
    by_cases hhm : headMatches s = true
    · simp only [headMatches, Bool.and_eq_true, Option.isSome_iff_exists] at hhm
      obtain ⟨hsw, r, hA⟩ := hhm
      obtain ⟨mid, heq, hterm⟩ := afterTerm_split _ _ hA
      have hs_eq : s = tagOpenLit ++ (mid ++ '/' :: '>' :: r) := by
        rw [← heq]
        exact startsWithL_eq_append hsw
      have hlen : r.length < s.length := by
        have h2 := afterTerm_length _ _ hA
        rw [List.length_drop] at h2
        have h3 : tagOpenLit.length ≤ s.length := startsWithL_length hsw
        have h4 : 0 < tagOpenLit.length := by decide
        omega
      obtain ⟨gaps, marks, hsub⟩ := scanSplit_exists r
      refine ⟨[] :: gaps, (tagOpenLit ++ (mid ++ (['/', '>']))) :: marks, ?_⟩
      have hm : IsMarker (tagOpenLit ++ (mid ++ (['/', '>']))) := by
        constructor
        · exact startsWithL_self_append _ _
        · rw [List.drop_left]
          exact hterm
      have hgf : GapFree [] ((tagOpenLit ++ (mid ++ (['/', '>']))) ++ r) := by
        intro u hu hne
        simp at hu
        exact absurd hu hne
      have := ScanSplit.cons [] (tagOpenLit ++ (mid ++ (['/', '>']))) r gaps marks hgf hm hsub
      rw [List.nil_append] at this
      have hshape : (tagOpenLit ++ (mid ++ (['/', '>']))) ++ r =
          tagOpenLit ++ (mid ++ '/' :: '>' :: r) := by simp
      rw [hshape] at this
      rw [hs_eq]
      exact this
    · rw [Bool.not_eq_true] at hhm
      cases s with
      | nil =>
        exact ⟨[[]], [], ScanSplit.last [] (by intro u hu hne; simp at hu; exact absurd hu hne)⟩
      | cons c cs =>
        obtain ⟨gaps, marks, hsub⟩ := scanSplit_exists cs
        obtain ⟨gaps2, h2⟩ := scanSplit_cons hhm hsub
        exact ⟨gaps2, marks, h2⟩
termination_by s.length
decreasing_by
  · exact hlen
  · simp

theorem utf8DecodeOne_length : ∀ l (c : Char) (rest : List Nat),
    utf8DecodeOne l = some (c, rest) → rest.length < l.length := by
  intro l c rest h
  cases l with
  | nil => simp [utf8DecodeOne] at h
  | cons b bs =>
    cases bs with
    | nil =>
      rw [utf8DecodeOne.eq_3] at h
      repeat' split at h
      all_goals try simp_all
    | cons b1 bs1 =>
      rw [utf8DecodeOne.eq_2] at h
      repeat' split at h
      all_goals try simp_all
      all_goals omega

theorem utf8DecodeGo_nil (f : Nat) : utf8DecodeGo f [] = some [] := by
  cases f <;> rfl

theorem utf8DecodeGo_fuel : ∀ f g (l : List Nat), l.length ≤ f → l.length ≤ g →
    utf8DecodeGo f l = utf8DecodeGo g l
  | _, _, [], _, _ => by rw [utf8DecodeGo_nil, utf8DecodeGo_nil]
  | 0, _, b :: bs, hf, _ => by simp at hf
  | _ + 1, 0, b :: bs, _, hg => by simp at hg
  | f + 1, g + 1, b :: bs, hf, hg => by
    rw [utf8DecodeGo, utf8DecodeGo]
    cases hone : utf8DecodeOne (b :: bs) with
    | some p =>
      obtain ⟨c, rest⟩ := p
      have hlen := utf8DecodeOne_length _ _ _ hone
      simp only [List.length_cons] at hf hg hlen
      simp only [hone]
      rw [utf8DecodeGo_fuel f g rest (by omega) (by omega)]
    | none => simp only [hone]

theorem utf8Decode_cons_of_one {l : List Nat} {c : Char} {rest : List Nat}
    (h : utf8DecodeOne l = some (c, rest)) :
    utf8Decode l = (utf8Decode rest).map (fun r => c :: r) := by
  have hlen := utf8DecodeOne_length l c rest h
  cases l with
  | nil => simp [utf8DecodeOne] at h
  | cons b bs =>
    unfold utf8Decode
    rw [show (b :: bs).length = bs.length + 1 from rfl, utf8DecodeGo]
    simp only [h]
    simp only [List.length_cons] at hlen
    rw [utf8DecodeGo_fuel bs.length rest.length rest (by omega) (le_refl _)]

theorem utf8DecodeOne_encodeChar (c : Char) (rest : List Nat) :
    utf8DecodeOne (utf8EncodeChar c ++ rest) = some (c, rest) := by
  have hofn : Char.ofNat c.toNat = c := Char.ofNat_toNat c
  have hv : c.toNat < 55296 ∨ (57343 < c.toNat ∧ c.toNat < 1114112) := c.valid
  by_cases h1 : c.toNat < 128
  · have he : utf8EncodeChar c = [c.toNat] := by
      simp only [utf8EncodeChar]
      rw [if_pos h1]
    have hcons : ∀ (b : Nat) (bs : List Nat), b < 128 →
        utf8DecodeOne (b :: bs) = some (Char.ofNat b, bs) := by
      intro b bs hb
      cases bs with
      | nil => rw [utf8DecodeOne.eq_3, if_pos hb]
      | cons b1 bs1 => rw [utf8DecodeOne.eq_2, if_pos hb]
    rw [he, List.cons_append, List.nil_append, hcons c.toNat rest h1, hofn]
  · by_cases h2 : c.toNat < 2048
    · have he : utf8EncodeChar c = [192 + c.toNat / 64, 128 + c.toNat % 64] := by
        simp only [utf8EncodeChar]
        rw [if_neg h1, if_pos h2]
      have hA : ¬ (192 + c.toNat / 64 < 128) := by omega
      have hB : ¬ (192 + c.toNat / 64 < 194) := by omega
      have hC : 192 + c.toNat / 64 < 224 := by omega
      have hD : 128 ≤ 128 + c.toNat % 64 ∧ 128 + c.toNat % 64 < 192 := by omega
      have hval : (192 + c.toNat / 64 - 192) * 64 + (128 + c.toNat % 64 - 128) = c.toNat := by
        omega
      rw [he]
      simp only [List.cons_append, List.nil_append]
      rw [utf8DecodeOne, if_neg hA, if_neg hB, if_pos hC, if_pos hD, hval, hofn]
    · by_cases h3 : c.toNat < 65536
      · have he : utf8EncodeChar c =
            [224 + c.toNat / 4096, 128 + c.toNat / 64 % 64, 128 + c.toNat % 64] := by
          simp only [utf8EncodeChar]
          rw [if_neg h1, if_neg h2, if_pos h3]
        have hA : ¬ (224 + c.toNat / 4096 < 128) := by omega
        have hB : ¬ (224 + c.toNat / 4096 < 194) := by omega
        have hC : ¬ (224 + c.toNat / 4096 < 224) := by omega
        have hD : 224 + c.toNat / 4096 < 240 := by omega
        have hE : 128 ≤ 128 + c.toNat / 64 % 64 ∧ 128 + c.toNat / 64 % 64 < 192 ∧
            128 ≤ 128 + c.toNat % 64 ∧ 128 + c.toNat % 64 < 192 := by omega
        have hval : (224 + c.toNat / 4096 - 224) * 4096 +
            (128 + c.toNat / 64 % 64 - 128) * 64 + (128 + c.toNat % 64 - 128) = c.toNat := by
          omega
        rw [he]
        simp only [List.cons_append, List.nil_append]
        rw [utf8DecodeOne]
        simp only [if_neg hA, if_neg hB, if_neg hC, if_pos hD, if_pos hE]
        simp only [hval]
        rw [if_pos (by omega), hofn]
      · have h4 : c.toNat < 1114112 := by omega
        have he : utf8EncodeChar c = [240 + c.toNat / 262144, 128 + c.toNat / 4096 % 64,
            128 + c.toNat / 64 % 64, 128 + c.toNat % 64] := by
          simp only [utf8EncodeChar]
          rw [if_neg h1, if_neg h2, if_neg h3]
        have hA : ¬ (240 + c.toNat / 262144 < 128) := by omega
        have hB : ¬ (240 + c.toNat / 262144 < 194) := by omega
        have hC : ¬ (240 + c.toNat / 262144 < 224) := by omega
        have hD : ¬ (240 + c.toNat / 262144 < 240) := by omega
        have hE : 240 + c.toNat / 262144 < 245 := by omega
        have hF : 128 ≤ 128 + c.toNat / 4096 % 64 ∧ 128 + c.toNat / 4096 % 64 < 192 ∧
            128 ≤ 128 + c.toNat / 64 % 64 ∧ 128 + c.toNat / 64 % 64 < 192 ∧
            128 ≤ 128 + c.toNat % 64 ∧ 128 + c.toNat % 64 < 192 := by omega
        have hval : (240 + c.toNat / 262144 - 240) * 262144 +
            (128 + c.toNat / 4096 % 64 - 128) * 4096 +
            (128 + c.toNat / 64 % 64 - 128) * 64 + (128 + c.toNat % 64 - 128) = c.toNat := by
          omega
        rw [he]
        simp only [List.cons_append, List.nil_append]
        rw [utf8DecodeOne]
        simp only [if_neg hA, if_neg hB, if_neg hC, if_neg hD, if_pos hE, if_pos hF]
        simp only [hval]
        rw [if_pos (by omega), hofn]

theorem utf8Decode_encode_append (s : List Char) (rest : List Nat) :
    utf8Decode (utf8Encode s ++ rest) = (utf8Decode rest).map (fun r => s ++ r) := by
  induction s with
  | nil =>
    have h0 : utf8Encode [] = [] := rfl
    rw [h0, List.nil_append]
    cases utf8Decode rest <;> simp
  | cons c cs ih =>
    have hsplit : utf8Encode (c :: cs) = utf8EncodeChar c ++ utf8Encode cs := by
      simp [utf8Encode]
    rw [hsplit, List.append_assoc,
      utf8Decode_cons_of_one (utf8DecodeOne_encodeChar c (utf8Encode cs ++ rest)), ih]
    cases utf8Decode rest <;> simp

/-- Decoding inverts encoding: what the transform writes back for a modified
worksheet entry decodes to the modified text. -/
theorem utf8Decode_utf8Encode (s : List Char) : utf8Decode (utf8Encode s) = some s := by
  have h := utf8Decode_encode_append s []
  rw [List.append_nil] at h
  rw [h, show utf8Decode [] = some [] from utf8DecodeGo_nil 0]
  simp

/-- The entry had at least one marker occurrence removed: it is a worksheet
entry whose payload (as read from the source archive) decodes to a text with a
positive removal count. -/
def entryRemoved (zin : List ZipEntry) (e : ZipEntry) : Bool :=
  startsWithL worksheetsDir e.filename &&
    ((utf8Decode (zinRead zin e.filename)).elim false
      (fun s => decide (0 < (protection_subn s).2)))

/-- Messages of a loop outcome. -/
def LoopOut.msgs : LoopOut → List (List Char)
  | .ok _ m _ => m
  | .err _ m => m

/-- Relation between a source entry and the entry written for it: same name,
non-worksheet payloads copied verbatim, worksheet payloads either rewritten to
the re-encoded stripped text or copied verbatim. -/
def loopRel (zin : List ZipEntry) (a b : ZipEntry) : Prop :=
  b.filename = a.filename ∧
  (startsWithL worksheetsDir a.filename = false → b.payload = zinRead zin a.filename) ∧
  (startsWithL worksheetsDir a.filename = true →
    ∃ s, utf8Decode (zinRead zin a.filename) = some s ∧
      (b.payload = utf8Encode (protection_subn s).1 ∨ b.payload = zinRead zin a.filename))

theorem zinRead_foldl_none {name : List Char} :
    ∀ (l : List ZipEntry) (acc : Option (List Nat)), (∀ x ∈ l, x.filename ≠ name) →
    l.foldl (fun acc e => if e.filename = name then some e.payload else acc) acc = acc := by
  intro l
  induction l with
  | nil => intro acc _; rfl
  | cons e t ih =>
    intro acc h
    rw [List.foldl_cons, if_neg (h e (by simp))]
    exact ih acc (fun x hx => h x (by simp [hx]))

theorem zinRead_of_mem {zin : List ZipEntry} {e : ZipEntry}
    (hu : zin.Pairwise (fun a b => a.filename ≠ b.filename)) (he : e ∈ zin) :
    zinRead zin e.filename = e.payload := by
  obtain ⟨s, t, rfl⟩ := List.append_of_mem he
  have hpair : (e :: t).Pairwise (fun a b => a.filename ≠ b.filename) :=
    (List.pairwise_append.mp hu).2.1
  have ht : ∀ x ∈ t, x.filename ≠ e.filename := by
    intro x hx hEq
    exact (List.pairwise_cons.mp hpair).1 x hx hEq.symm
  unfold zinRead
  rw [List.foldl_append, List.foldl_cons, if_pos rfl, zinRead_foldl_none t _ ht]

theorem processEntries_cons_ws_ok {zin rest : List ZipEntry}
    {w : List ZipEntry} {m : List (List Char)} {f : Bool} {item : ZipEntry} {s : List Char}
    (hws : startsWithL worksheetsDir item.filename = true)
    (hdec : utf8Decode (zinRead zin item.filename) = some s)
    (hrest : processEntries zin rest = .ok w m f) :
    processEntries zin (item :: rest) =
      if 0 < (protection_subn s).2 then
        .ok (⟨item.filename, utf8Encode (protection_subn s).1⟩ :: w)
          (removedMsgText item.filename :: m) true
      else
        .ok (⟨item.filename, zinRead zin item.filename⟩ :: w) m f := by
  rw [processEntries, if_pos hws]
  simp only [hdec, hrest]

theorem processEntries_cons_nonws_ok {zin rest : List ZipEntry}
    {w : List ZipEntry} {m : List (List Char)} {f : Bool} {item : ZipEntry}
    (hws : startsWithL worksheetsDir item.filename = false)
    (hrest : processEntries zin rest = .ok w m f) :
    processEntries zin (item :: rest) =
      .ok (⟨item.filename, zinRead zin item.filename⟩ :: w) m f := by
  rw [processEntries, if_neg (by simp [hws])]
  simp only [hrest]

theorem processEntries_noop (zin : List ZipEntry) : ∀ l : List ZipEntry,
    (∀ e ∈ l, startsWithL worksheetsDir e.filename = true →
      ∃ s, utf8Decode (zinRead zin e.filename) = some s ∧ (protection_subn s).2 = 0) →
    processEntries zin l =
      .ok (l.map (fun e => ⟨e.filename, zinRead zin e.filename⟩)) [] false := by
  intro l h
  induction l with
  | nil => rfl
  | cons item rest ih =>
    have hrest := ih (fun e he hw => h e (by simp [he]) hw)
    by_cases hws : startsWithL worksheetsDir item.filename = true
    · obtain ⟨s, hdec, hcnt⟩ := h item (by simp) hws
      rw [processEntries_cons_ws_ok hws hdec hrest, if_neg (by omega), List.map_cons]
    · rw [processEntries_cons_nonws_ok (Bool.not_eq_true _ ▸ hws) hrest, List.map_cons]

theorem processEntries_ok_msgs (zin : List ZipEntry) :
    ∀ (l w : List ZipEntry) (m : List (List Char)) (f : Bool),
    processEntries zin l = .ok w m f →
    m = (l.filter (entryRemoved zin)).map (fun e => removedMsgText e.filename) ∧
    f = l.any (entryRemoved zin) := by
  intro l
  induction l with
  | nil =>
    intro w m f h
    rw [processEntries] at h
    injection h with h1 h2 h3
    exact ⟨h2.symm, h3.symm⟩
  | cons item rest ih =>
    intro w m f h
    by_cases hws : startsWithL worksheetsDir item.filename = true
    · rw [processEntries, if_pos hws] at h
      cases hdec : utf8Decode (zinRead zin item.filename) with
      | none =>
        simp only [hdec] at h
        exact absurd h (by simp)
      | some s =>
        simp only [hdec] at h
        have hER : entryRemoved zin item = decide (0 < (protection_subn s).2) := by
          unfold entryRemoved
          rw [hws, hdec, Bool.true_and, Option.elim]
        by_cases hc : 0 < (protection_subn s).2
        · rw [if_pos hc] at h
          cases hrest : processEntries zin rest with
          | ok w2 m2 f2 =>
            rw [hrest] at h
            injection h with h1 h2 h3
            obtain ⟨ihm, ihf⟩ := ih w2 m2 f2 hrest
            have hERt : entryRemoved zin item = true := by
              rw [hER]
              simpa using hc
            constructor
            · rw [← h2, List.filter_cons_of_pos hERt, List.map_cons, ihm]
            · rw [← h3, List.any_cons, hERt, Bool.true_or]
          | err w2 m2 =>
            rw [hrest] at h
            exact absurd h (by simp)
        · rw [if_neg hc] at h
          cases hrest : processEntries zin rest with
          | ok w2 m2 f2 =>
            rw [hrest] at h
            injection h with h1 h2 h3
            obtain ⟨ihm, ihf⟩ := ih w2 m2 f2 hrest
            have hERf : entryRemoved zin item = false := by
              rw [hER]
              simpa using hc
            constructor
            · rw [← h2, List.filter_cons_of_neg (by simp [hERf]), ihm]
            · rw [← h3, List.any_cons, hERf, Bool.false_or, ihf]
          | err w2 m2 =>
            rw [hrest] at h
            exact absurd h (by simp)
    · rw [processEntries, if_neg (by simpa using hws)] at h
      have hERf : entryRemoved zin item = false := by
        have hwsf : startsWithL worksheetsDir item.filename = false := by simpa using hws
        unfold entryRemoved
        rw [hwsf, Bool.false_and]
      cases hrest : processEntries zin rest with
      | ok w2 m2 f2 =>
        rw [hrest] at h
        injection h with h1 h2 h3
        obtain ⟨ihm, ihf⟩ := ih w2 m2 f2 hrest
        constructor
        · rw [← h2, List.filter_cons_of_neg (by simp [hERf]), ihm]
        · rw [← h3, List.any_cons, hERf, Bool.false_or, ihf]
      | err w2 m2 =>
        rw [hrest] at h
        exact absurd h (by simp)

theorem processEntries_ok_rel (zin : List ZipEntry) :
    ∀ (l w : List ZipEntry) (m : List (List Char)) (f : Bool),
    processEntries zin l = .ok w m f → List.Forall₂ (loopRel zin) l w := by
  intro l
  induction l with
  | nil =>
    intro w m f h
    rw [processEntries] at h
    injection h with h1 h2 h3
    rw [← h1]
    exact List.Forall₂.nil
  | cons item rest ih =>
    intro w m f h
    by_cases hws : startsWithL worksheetsDir item.filename = true
    · rw [processEntries, if_pos hws] at h
      cases hdec : utf8Decode (zinRead zin item.filename) with
      | none =>
        simp only [hdec] at h
        exact absurd h (by simp)
      | some s =>
        simp only [hdec] at h
        by_cases hc : 0 < (protection_subn s).2
        · rw [if_pos hc] at h
          cases hrest : processEntries zin rest with
          | ok w2 m2 f2 =>
            rw [hrest] at h
            injection h with h1 h2 h3
            rw [← h1]
            refine List.Forall₂.cons ⟨rfl, ?_, ?_⟩ (ih w2 m2 f2 hrest)
            · intro hcontra
              rw [hws] at hcontra
              cases hcontra
            · intro _
              exact ⟨s, hdec, Or.inl rfl⟩
          | err w2 m2 =>
            rw [hrest] at h
            exact absurd h (by simp)
        · rw [if_neg hc] at h
          cases hrest : processEntries zin rest with
          | ok w2 m2 f2 =>
            rw [hrest] at h
            injection h with h1 h2 h3
            rw [← h1]
            refine List.Forall₂.cons ⟨rfl, fun _ => rfl, ?_⟩ (ih w2 m2 f2 hrest)
            intro _
            exact ⟨s, hdec, Or.inr rfl⟩
          | err w2 m2 =>
            rw [hrest] at h
            exact absurd h (by simp)
    · rw [processEntries, if_neg (by simpa using hws)] at h
      cases hrest : processEntries zin rest with
      | ok w2 m2 f2 =>
        rw [hrest] at h
        injection h with h1 h2 h3
        rw [← h1]
        refine List.Forall₂.cons ⟨rfl, fun _ => rfl, ?_⟩ (ih w2 m2 f2 hrest)
        intro hcontra
        exact absurd hcontra hws
      | err w2 m2 =>
        rw [hrest] at h
        exact absurd h (by simp)

theorem processEntries_msgs_shape (zin : List ZipEntry) :
    ∀ l : List ZipEntry, ∀ x ∈ (processEntries zin l).msgs, ∃ nm, x = removedMsgText nm := by
  intro l
  induction l with
  | nil =>
    intro x hx
    rw [processEntries] at hx
    simp [LoopOut.msgs] at hx
  | cons item rest ih =>
    intro x hx
    by_cases hws : startsWithL worksheetsDir item.filename = true
    · rw [processEntries, if_pos hws] at hx
      cases hdec : utf8Decode (zinRead zin item.filename) with
      | none =>
        simp only [hdec] at hx
        simp [LoopOut.msgs] at hx
      | some s =>
        simp only [hdec] at hx
        by_cases hc : 0 < (protection_subn s).2
        · rw [if_pos hc] at hx
          cases hrest : processEntries zin rest with
          | ok w2 m2 f2 =>
            rw [hrest] at hx
            simp only [LoopOut.msgs] at hx
            rcases List.mem_cons.mp hx with hx | hx
            · exact ⟨item.filename, hx⟩
            · exact ih x (by rw [hrest]; exact hx)
          | err w2 m2 =>
            rw [hrest] at hx
            simp only [LoopOut.msgs] at hx
            rcases List.mem_cons.mp hx with hx | hx
            · exact ⟨item.filename, hx⟩
            · exact ih x (by rw [hrest]; exact hx)
        · rw [if_neg hc] at hx
          cases hrest : processEntries zin rest with
          | ok w2 m2 f2 =>
            rw [hrest] at hx
            exact ih x (by rw [hrest]; exact hx)
          | err w2 m2 =>
            rw [hrest] at hx
            exact ih x (by rw [hrest]; exact hx)
    · rw [processEntries, if_neg (by simpa using hws)] at hx
      cases hrest : processEntries zin rest with
      | ok w2 m2 f2 =>
        rw [hrest] at hx
        exact ih x (by rw [hrest]; exact hx)
      | err w2 m2 =>
        rw [hrest] at hx
        exact ih x (by rw [hrest]; exact hx)

theorem forall2_names {zin : List ZipEntry} : ∀ {l w : List ZipEntry},
    List.Forall₂ (loopRel zin) l w →
    w.map (fun e => e.filename) = l.map (fun e => e.filename) := by
  intro l w h
  induction h with
  | nil => rfl
  | cons hab hrest ih => simp [ih, hab.1]

theorem forall2_mem_right {zin : List ZipEntry} : ∀ {l w : List ZipEntry},
    List.Forall₂ (loopRel zin) l w → ∀ e ∈ w, ∃ a ∈ l, loopRel zin a e := by
  intro l w h
  induction h with
  | nil => intro e he; simp at he
  | cons hab hrest ih =>
    intro e he
    rcases List.mem_cons.mp he with he | he
    · exact ⟨_, by simp, he ▸ hab⟩
    · obtain ⟨a, ha, h2⟩ := ih e he
      exact ⟨a, by simp [ha], h2⟩

theorem forall2_strengthen {zin : List ZipEntry}
    (hu : zin.Pairwise (fun a b => a.filename ≠ b.filename)) :
    ∀ {l w : List ZipEntry}, List.Forall₂ (loopRel zin) l w → (∀ a ∈ l, a ∈ zin) →
    List.Forall₂ (fun a b => b.filename = a.filename ∧
      (startsWithL worksheetsDir a.filename = false → b = a)) l w := by
  intro l w h
  induction h with
  | nil => intro _; exact List.Forall₂.nil
  | @cons a b l1 l2 hab hrest ih =>
    intro hmem
    refine List.Forall₂.cons ⟨hab.1, ?_⟩ (ih (fun x hx => hmem x (by simp [hx])))
    intro hws
    have hpay := hab.2.1 hws
    rw [zinRead_of_mem hu (hmem a (by simp))] at hpay
    calc b = ⟨b.filename, b.payload⟩ := rfl
    _ = ⟨a.filename, a.payload⟩ := by rw [hab.1, hpay]
    _ = a := rfl

theorem afterTerm_no_early {mid : List Char} (post : List Char)
    (hnl : ∀ c ∈ mid, c ≠ '\n')
    (hterm : ∀ t ∈ mid.tails, startsWithL (['/', '>']) t = false) :
    afterTerm (mid ++ '/' :: '>' :: post) = some post := by
  induction mid with
  | nil => rw [List.nil_append, afterTerm, if_pos ⟨rfl, rfl⟩]
  | cons c mid2 ih =>
    have hc : c ≠ '\n' := hnl c (by simp)
    cases mid2 with
    | nil =>
      simp only [List.cons_append, List.nil_append]
      rw [afterTerm, if_neg (fun hq => absurd hq.2 (by decide)), if_neg hc,
        afterTerm, if_pos ⟨rfl, rfl⟩]
    | cons d mid3 =>
      simp only [List.cons_append]
      have hpair : ¬ (c = '/' ∧ d = '>') := by
        intro hq
        have hsw := hterm (c :: d :: mid3) (by simp)
        rw [hq.1, hq.2] at hsw
        simp [startsWithL] at hsw
      rw [afterTerm, if_neg hpair, if_neg hc]
      have ih2 := ih (fun x hx => hnl x (by simp [hx]))
        (fun t ht => hterm t (by rw [List.tails_cons]; exact List.mem_cons_of_mem _ ht))
      simpa [List.cons_append] using ih2

theorem head_ne_of_msgs {l1 l2 : List Char} (h : l1.head? ≠ l2.head?) : l1 ≠ l2 :=
  fun he => h (he ▸ rfl)

theorem removedMsg_ne_success (nm d : List Char) :
    removedMsgText nm ≠ successMsgText d := by
  apply head_ne_of_msgs
  rw [show (removedMsgText nm).head? = some 'F' from rfl,
    show (successMsgText d).head? = some 'S' from rfl]
  decide

theorem removedMsg_ne_noProt (nm : List Char) : removedMsgText nm ≠ noProtMsgText := by
  apply head_ne_of_msgs
  rw [show (removedMsgText nm).head? = some 'F' from rfl,
    show noProtMsgText.head? = some 'N' from rfl]
  decide

theorem errorMsg_ne_success (detail d : List Char) :
    errorMsgText detail ≠ successMsgText d := by
  apply head_ne_of_msgs
  rw [show (errorMsgText detail).head? = some 'A' from rfl,
    show (successMsgText d).head? = some 'S' from rfl]
  decide

theorem errorMsg_ne_noProt (detail : List Char) : errorMsgText detail ≠ noProtMsgText := by
  apply head_ne_of_msgs
  rw [show (errorMsgText detail).head? = some 'A' from rfl,
    show noProtMsgText.head? = some 'N' from rfl]
  decide

theorem remove_excel_protection_some (entries : List ZipEntry) (d : List Char) :
    remove_excel_protection (some entries) d =
      match processEntries entries entries with
      | .ok w m f =>
        ⟨.completed f w, m ++ [if f then successMsgText d else noProtMsgText], false⟩
      | .err w m =>
        ⟨.failed (some w), m ++ [errorMsgText decodeFailureDetail], false⟩ := rfl

/-- A run over a container whose worksheet entries all decode with removal
count zero completes with the container copied byte for byte, the final
no-protection message and a false flag. -/
theorem noop_result {zin : List ZipEntry} {d : List Char}
    (hu : zin.Pairwise (fun a b => a.filename ≠ b.filename))
    (h : ∀ e ∈ zin, startsWithL worksheetsDir e.filename = true →
      ∃ s, utf8Decode e.payload = some s ∧ (protection_subn s).2 = 0) :
    remove_excel_protection (some zin) d =
      ⟨.completed false zin, [noProtMsgText], false⟩ := by
  have h2 : ∀ e ∈ zin, startsWithL worksheetsDir e.filename = true →
      ∃ s, utf8Decode (zinRead zin e.filename) = some s ∧ (protection_subn s).2 = 0 := by
    intro e he hws
    rw [zinRead_of_mem hu he]
    exact h e he hws
  have hloop := processEntries_noop zin zin h2
  have hmap : zin.map (fun e => (⟨e.filename, zinRead zin e.filename⟩ : ZipEntry)) = zin := by
    conv_rhs => rw [← List.map_id zin]
    apply List.map_congr_left
    intro e he
    rw [zinRead_of_mem hu he]
    rfl
  rw [remove_excel_protection_some, hloop]
  simp [hmap]

/-- The run hits an exception: the source cannot be opened as a zip archive, or
a worksheet entry fails to decode during the loop. -/
def runFails (zin : Option (List ZipEntry)) : Prop :=
  zin = none ∨ ∃ entries w m, zin = some entries ∧ processEntries entries entries = .err w m

/-- Worksheet path used by the concrete witness containers. -/
def wsName : List Char := ("xl/worksheets/sheet1.xml").data

/-- C1: for every worksheet entry whose decoded UTF-8 text splits into N
non-overlapping occurrences of the protection-marker pattern with gaps around
them, the transform removes exactly those N occurrences (result is the gaps
concatenated in original order, count is N), and it counts the entry as
affected, emitting its per-entry message and forcing the protection-found flag,
exactly when N is positive. -/
theorem c1_marker_removal {zin rest w : List ZipEntry} {m : List (List Char)} {f : Bool}
    {item : ZipEntry} {s : List Char} {gaps marks : List (List Char)}
    (hws : startsWithL worksheetsDir item.filename = true)
    (hdec : utf8Decode (zinRead zin item.filename) = some s)
    (hsplit : ScanSplit s gaps marks)
    (hrest : processEntries zin rest = .ok w m f) :
    protection_subn s = (gaps.flatten, marks.length) ∧
    processEntries zin (item :: rest) =
      (if 0 < marks.length then
        .ok (⟨item.filename, utf8Encode gaps.flatten⟩ :: w)
          (removedMsgText item.filename :: m) true
      else
        .ok (⟨item.filename, zinRead zin item.filename⟩ :: w) m f) := by
  have hsubn := scanSplit_subn hsplit
  refine ⟨hsubn, ?_⟩
  rw [processEntries_cons_ws_ok hws hdec hrest, hsubn]

/-- Concrete worksheet entry for the C1 witness. -/
def c1item : ZipEntry := ⟨wsName, utf8Encode (("<a/><sheetProtection p=1/><b/>").data)⟩

theorem c1_witness :
    ScanSplit (("<a/><sheetProtection p=1/><b/>").data)
      [("<a/>").data, ("<b/>").data] [("<sheetProtection p=1/>").data] ∧
    protection_subn (("<a/><sheetProtection p=1/><b/>").data) =
      ([("<a/>").data, ("<b/>").data].flatten, 1) ∧
    processEntries [c1item] [c1item] =
      .ok [⟨c1item.filename, utf8Encode [("<a/>").data, ("<b/>").data].flatten⟩]
        [removedMsgText c1item.filename] true := by
  have hsplit : ScanSplit (("<a/><sheetProtection p=1/><b/>").data)
      [("<a/>").data, ("<b/>").data] [("<sheetProtection p=1/>").data] := by
    have heq : ("<a/><sheetProtection p=1/><b/>").data =
        ("<a/>").data ++ ("<sheetProtection p=1/>").data ++ ("<b/>").data := by decide
    rw [heq]
    exact ScanSplit.cons _ _ _ _ _ (by decide) (by decide) (ScanSplit.last _ (by decide))
  have hws1 : startsWithL worksheetsDir c1item.filename = true := by decide
  have hdec1 : utf8Decode (zinRead [c1item] c1item.filename) =
      some (("<a/><sheetProtection p=1/><b/>").data) := by decide
  have hrest1 : processEntries [c1item] ([] : List ZipEntry) = .ok [] [] false := rfl
  have h := c1_marker_removal hws1 hdec1 hsplit hrest1
  refine ⟨hsplit, h.1, ?_⟩
  rw [h.2]
  rfl

/-- C2: for every input container with unique entry names in which every
worksheet entry decodes to a text free of marker occurrences, the transform
completes, the destination entries are byte-identical to the source entries in
the same order, and the result reports that no protection was found. -/
theorem c2_no_marker_copy {zin : List ZipEntry} {d : List Char}
    (hu : zin.Pairwise (fun a b => a.filename ≠ b.filename))
    (h : ∀ e ∈ zin, startsWithL worksheetsDir e.filename = true →
      ∃ s, utf8Decode e.payload = some s ∧ GapFree s []) :
    remove_excel_protection (some zin) d =
      ⟨.completed false zin, [noProtMsgText], false⟩ := by
  refine noop_result hu ?_
  intro e he hws
  obtain ⟨s, hdec, hgf⟩ := h e he hws
  refine ⟨s, hdec, ?_⟩
  have h2 := scanSplit_subn (ScanSplit.last s hgf)
  rw [h2]
  rfl

/-- Concrete marker-free container for the C2 witness. -/
def c2entry : ZipEntry := ⟨wsName, utf8Encode (("<ws/>").data)⟩

theorem c2_witness :
    (∀ e ∈ [c2entry], startsWithL worksheetsDir e.filename = true →
      ∃ s, utf8Decode e.payload = some s ∧ GapFree s []) ∧
    remove_excel_protection (some [c2entry]) (("out.xlsx").data) =
      ⟨.completed false [c2entry], [noProtMsgText], false⟩ := by
  have hh : ∀ e ∈ [c2entry], startsWithL worksheetsDir e.filename = true →
      ∃ s, utf8Decode e.payload = some s ∧ GapFree s [] := by
    intro e he _
    rw [List.mem_singleton] at he
    subst he
    exact ⟨("<ws/>").data, by decide, by decide⟩
  exact ⟨hh, c2_no_marker_copy (by decide) hh⟩

/-- C3 counterexample: a span whose tag-open sequence and terminator are
separated by a newline is NOT matched by the removal pattern (the dot of the
regex does not match a newline), so nothing is removed, contradicting the
claim that such a marker is still matched and removed. -/
theorem c3_counterexample :
    protection_subn (("<sheetProtection a=1\n/>").data) =
      ((("<sheetProtection a=1\n/>").data), 0) := by decide

/-- C3 amended: the removal pattern matches the shortest substring beginning
with the literal tag-open sequence and ending at the first subsequent
terminator, for arbitrary attribute content PROVIDED the span between tag-open
and terminator contains no newline (and no earlier terminator), and regardless
of the surrounding text before and after the span. -/
theorem c3_shortest_match {pre mid post : List Char}
    (hnl : ∀ c ∈ mid, c ≠ '\n')
    (hterm : ∀ t ∈ mid.tails, startsWithL (['/', '>']) t = false)
    (hpre : GapFree pre (tagOpenLit ++ (mid ++ '/' :: '>' :: post))) :
    protection_subn (pre ++ (tagOpenLit ++ (mid ++ '/' :: '>' :: post))) =
      (pre ++ (protection_subn post).1, (protection_subn post).2 + 1) := by
  have hA := afterTerm_no_early post hnl hterm
  have hsw : startsWithL tagOpenLit (tagOpenLit ++ (mid ++ '/' :: '>' :: post)) = true :=
    startsWithL_self_append _ _
  have hstep := marker_step hsw (by rw [List.drop_left]; exact hA)
  rw [gapFree_subn pre hpre, hstep]

theorem c3_witness :
    (∀ c ∈ (" password=ABC sheet=1 ").data, c ≠ '\n') ∧
    GapFree ((" \n<q> ").data)
      (tagOpenLit ++ ((" password=ABC sheet=1 ").data ++ '/' :: '>' :: ("<r/>\n").data)) ∧
    protection_subn ((" \n<q> ").data ++
        (tagOpenLit ++ ((" password=ABC sheet=1 ").data ++ '/' :: '>' :: ("<r/>\n").data))) =
      ((" \n<q> ").data ++ (protection_subn (("<r/>\n").data)).1,
        (protection_subn (("<r/>\n").data)).2 + 1) :=
  ⟨by decide, by decide,
    c3_shortest_match (by decide) (by decide) (by decide)⟩

/-- Worksheet entry whose payload is not valid UTF-8, for the C4
counterexample. -/
def badUtf8Entry : ZipEntry := ⟨wsName, [255]⟩

/-- C4 counterexample: on a container whose worksheet entry cannot be decoded
as UTF-8 an error occurs (the run fails), yet no exception propagates out of
remove_excel_protection — the final except clause catches it — contradicting
the claim that the transform fails by raising a processing error to the
caller. -/
theorem c4_counterexample :
    (remove_excel_protection (some [badUtf8Entry]) (("out.xlsx").data)).raised = false ∧
    (remove_excel_protection (some [badUtf8Entry]) (("out.xlsx").data)).outcome =
      .failed (some []) := by decide

/-- C4 amended: on every invocation in which the source cannot be opened as a
valid archive or a worksheet entry fails to decode, the transform catches the
error, reports an error message through the status callback as its last
message, reports no success and no no-protection message, and returns normally
to the caller (no exception propagates). -/
theorem c4_error_reporting {zin : Option (List ZipEntry)} {d : List Char}
    (h : runFails zin) :
    (remove_excel_protection zin d).raised = false ∧
    (∃ po, (remove_excel_protection zin d).outcome = .failed po) ∧
    (∃ detail ms, (remove_excel_protection zin d).messages = ms ++ [errorMsgText detail] ∧
      ∀ x ∈ ms, ∃ nm, x = removedMsgText nm) ∧
    successMsgText d ∉ (remove_excel_protection zin d).messages ∧
    noProtMsgText ∉ (remove_excel_protection zin d).messages := by
  rcases h with h | ⟨entries, w2, m2, rfl, hloop⟩
  · subst h
    refine ⟨rfl, ⟨none, rfl⟩, ⟨openFailureDetail, [], rfl, by simp⟩, ?_, ?_⟩
    · intro hmem
      rw [show (remove_excel_protection none d).messages =
        [errorMsgText openFailureDetail] from rfl] at hmem
      rcases List.mem_singleton.mp hmem with h2
      exact absurd h2.symm (errorMsg_ne_success openFailureDetail d)
    · intro hmem
      rw [show (remove_excel_protection none d).messages =
        [errorMsgText openFailureDetail] from rfl] at hmem
      rcases List.mem_singleton.mp hmem with h2
      exact absurd h2.symm (errorMsg_ne_noProt openFailureDetail)
  · have hres : remove_excel_protection (some entries) d =
        ⟨.failed (some w2), m2 ++ [errorMsgText decodeFailureDetail], false⟩ := by
      rw [remove_excel_protection_some, hloop]
    have hm2 : ∀ x ∈ m2, ∃ nm, x = removedMsgText nm := by
      intro x hx
      refine processEntries_msgs_shape entries entries x ?_
      rw [hloop]
      exact hx
    rw [hres]
    refine ⟨rfl, ⟨some w2, rfl⟩, ⟨decodeFailureDetail, m2, rfl, hm2⟩, ?_, ?_⟩
    · intro hmem
      rcases List.mem_append.mp hmem with hmem | hmem
      · obtain ⟨nm, hnm⟩ := hm2 _ hmem
        exact absurd hnm.symm (removedMsg_ne_success nm d)
      · rcases List.mem_singleton.mp hmem with h2
        exact absurd h2.symm (errorMsg_ne_success decodeFailureDetail d)
    · intro hmem
      rcases List.mem_append.mp hmem with hmem | hmem
      · obtain ⟨nm, hnm⟩ := hm2 _ hmem
        exact absurd hnm.symm (removedMsg_ne_noProt nm)
      · rcases List.mem_singleton.mp hmem with h2
        exact absurd h2.symm (errorMsg_ne_noProt decodeFailureDetail)

theorem c4_witness :
    runFails none ∧
    ((remove_excel_protection none (("o.xlsx").data)).raised = false ∧
      (∃ po, (remove_excel_protection none (("o.xlsx").data)).outcome = .failed po) ∧
      (∃ detail ms, (remove_excel_protection none (("o.xlsx").data)).messages =
          ms ++ [errorMsgText detail] ∧ ∀ x ∈ ms, ∃ nm, x = removedMsgText nm) ∧
      successMsgText (("o.xlsx").data) ∉
        (remove_excel_protection none (("o.xlsx").data)).messages ∧
      noProtMsgText ∉ (remove_excel_protection none (("o.xlsx").data)).messages) :=
  ⟨Or.inl rfl, c4_error_reporting (Or.inl rfl)⟩

/-- First-run input text of the C5 counterexample: removing its single marker
occurrence splices the surrounding text into a fresh marker occurrence. -/
def c5entry1 : ZipEntry :=
  ⟨wsName, utf8Encode (("<sheetProt<sheetProtection x/>ection y/>").data)⟩

/-- Output entry of the first C5 run: its text again contains a marker. -/
def c5entry2 : ZipEntry := ⟨wsName, utf8Encode (("<sheetProtection y/>").data)⟩

/-- C5 counterexample: the transform succeeds on the first container, and
running it again on the first run's output finds and removes protection again
(flag true, removal message emitted), instead of reporting no protection found
with output identical to its input as the idempotence claim states. -/
theorem c5_counterexample :
    remove_excel_protection (some [c5entry1]) (("out.xlsx").data) =
      ⟨.completed true [c5entry2],
        [removedMsgText wsName, successMsgText (("out.xlsx").data)], false⟩ ∧
    remove_excel_protection (some [c5entry2]) (("out.xlsx").data) =
      ⟨.completed true [⟨wsName, []⟩],
        [removedMsgText wsName, successMsgText (("out.xlsx").data)], false⟩ := by decide

/-- C5 amended: the second run reports no protection found and returns its
input unchanged PROVIDED the first run's output worksheet texts contain no
marker occurrence (removal can splice surrounding text into a fresh occurrence,
in which case a second run removes again). -/
theorem c5_conditional_idempotence {zin w : List ZipEntry} {m : List (List Char)}
    {f : Bool} {d2 : List Char}
    (hu : zin.Pairwise (fun a b => a.filename ≠ b.filename))
    (h1 : processEntries zin zin = .ok w m f)
    (h2 : ∀ e ∈ w, startsWithL worksheetsDir e.filename = true →
      ∀ s, utf8Decode e.payload = some s → (protection_subn s).2 = 0) :
    remove_excel_protection (some w) d2 = ⟨.completed false w, [noProtMsgText], false⟩ := by
  have hrel := processEntries_ok_rel zin zin w m f h1
  have hnames : w.map (fun e => e.filename) = zin.map (fun e => e.filename) :=
    forall2_names hrel
  have hu2 : w.Pairwise (fun a b => a.filename ≠ b.filename) := by
    have h3 : (w.map (fun e => e.filename)).Pairwise (fun a b => a ≠ b) := by
      rw [hnames]
      exact (List.pairwise_map).mpr hu
    exact (List.pairwise_map).mp h3
  refine noop_result hu2 ?_
  intro e he hws
  obtain ⟨a, ha, hname, hcopy, hwsrel⟩ := forall2_mem_right hrel e he
  have hwsa : startsWithL worksheetsDir a.filename = true := by
    rw [← hname]
    exact hws
  obtain ⟨s, hdeca, hpay⟩ := hwsrel hwsa
  rcases hpay with hpay | hpay
  · refine ⟨(protection_subn s).1, ?_, ?_⟩
    · rw [hpay]
      exact utf8Decode_utf8Encode _
    · refine h2 e he hws _ ?_
      rw [hpay]
      exact utf8Decode_utf8Encode _
  · refine ⟨s, ?_, ?_⟩
    · rw [hpay]
      exact hdeca
    · refine h2 e he hws s ?_
      rw [hpay]
      exact hdeca

/-- Marker-free worksheet entry for the C5 witness. -/
def c5okEntry : ZipEntry := ⟨wsName, utf8Encode (("<ok/>").data)⟩

theorem c5_witness :
    processEntries [c5okEntry] [c5okEntry] = .ok [c5okEntry] [] false ∧
    remove_excel_protection (some [c5okEntry]) (("out2.xlsx").data) =
      ⟨.completed false [c5okEntry], [noProtMsgText], false⟩ := by
  have h1 : processEntries [c5okEntry] [c5okEntry] = .ok [c5okEntry] [] false := by decide
  refine ⟨h1, c5_conditional_idempotence (by decide) h1 ?_⟩
  intro e he _ s hs
  rw [List.mem_singleton] at he
  subst he
  rw [show utf8Decode c5okEntry.payload = some (("<ok/>").data) from by decide] at hs
  injection hs with hs2
  rw [← hs2]
  decide

/-- C6: for every input container with unique entry names on which the loop
completes, the output has exactly the entries of the input, in the same order
and under the same names, and every entry whose path does not start with the
worksheets prefix keeps payload bytes identical to the source entry. -/
theorem c6_entry_invariants {zin w : List ZipEntry} {m : List (List Char)} {f : Bool}
    (hu : zin.Pairwise (fun a b => a.filename ≠ b.filename))
    (h : processEntries zin zin = .ok w m f) :
    w.map (fun e => e.filename) = zin.map (fun e => e.filename) ∧
    List.Forall₂ (fun a b => b.filename = a.filename ∧
      (startsWithL worksheetsDir a.filename = false → b = a)) zin w := by
  have hrel := processEntries_ok_rel zin zin w m f h
  exact ⟨forall2_names hrel, forall2_strengthen hu hrel (fun a ha => ha)⟩

/-- Pass-through entry for the C6 witness. -/
def c6doc : ZipEntry := ⟨("docProps/app.xml").data, [1, 2, 3]⟩

/-- Worksheet entry for the C6 witness. -/
def c6sheet : ZipEntry := ⟨wsName, utf8Encode (("<x/>").data)⟩

theorem c6_witness :
    processEntries [c6doc, c6sheet] [c6doc, c6sheet] =
      .ok [c6doc, c6sheet] [] false ∧
    ([c6doc, c6sheet].map (fun e => e.filename) =
      [c6doc, c6sheet].map (fun e => e.filename) ∧
    List.Forall₂ (fun a b => b.filename = a.filename ∧
      (startsWithL worksheetsDir a.filename = false → b = a))
      [c6doc, c6sheet] [c6doc, c6sheet]) := by
  have h : processEntries [c6doc, c6sheet] [c6doc, c6sheet] =
      .ok [c6doc, c6sheet] [] false := by decide
  exact ⟨h, c6_entry_invariants (by decide) h⟩

/-- C7: on every completed run the callback receives exactly one message per
worksheet entry where a removal occurred, naming that entry, in
entry-processing order, followed by exactly one final message: the success
message naming the destination when the flag is set, the no-protection message
otherwise. -/
theorem c7_progress_messages {zin w : List ZipEntry} {m : List (List Char)} {f : Bool}
    {d : List Char} (h : processEntries zin zin = .ok w m f) :
    (remove_excel_protection (some zin) d).messages =
      (zin.filter (entryRemoved zin)).map (fun e => removedMsgText e.filename) ++
      [if zin.any (entryRemoved zin) then successMsgText d else noProtMsgText] := by
  obtain ⟨hm, hf⟩ := processEntries_ok_msgs zin zin w m f h
  rw [remove_excel_protection_some, h]
  simp only []
  rw [hm, hf]

/-- Protected worksheet entry used by the C7 and C8 witnesses. -/
def c78entry : ZipEntry := ⟨wsName, utf8Encode (("<sheetProtection pw=1/><d/>").data)⟩

theorem c7_witness :
    processEntries [c78entry] [c78entry] =
      .ok [⟨wsName, utf8Encode (("<d/>").data)⟩] [removedMsgText wsName] true ∧
    (remove_excel_protection (some [c78entry]) (("out.xlsx").data)).messages =
      ([c78entry].filter (entryRemoved [c78entry])).map
        (fun e => removedMsgText e.filename) ++
      [if [c78entry].any (entryRemoved [c78entry]) then
        successMsgText (("out.xlsx").data) else noProtMsgText] := by
  have h : processEntries [c78entry] [c78entry] =
      .ok [⟨wsName, utf8Encode (("<d/>").data)⟩] [removedMsgText wsName] true := by decide
  exact ⟨h, c7_progress_messages h⟩

/-- C8: every completed invocation carries a protection-removed flag that is
true exactly when at least one marker occurrence was removed from some
worksheet entry, and the flag together with the written entries forms the
completed outcome. -/
theorem c8_protection_flag {zin w : List ZipEntry} {m : List (List Char)} {f : Bool}
    {d : List Char} (h : processEntries zin zin = .ok w m f) :
    (remove_excel_protection (some zin) d).outcome = .completed f w ∧
    (f = true ↔ ∃ e ∈ zin, startsWithL worksheetsDir e.filename = true ∧
      ∃ s, utf8Decode (zinRead zin e.filename) = some s ∧ 0 < (protection_subn s).2) := by
  obtain ⟨hm, hf⟩ := processEntries_ok_msgs zin zin w m f h
  constructor
  · rw [remove_excel_protection_some, h]
  · rw [hf, List.any_eq_true]
    constructor
    · rintro ⟨e, he, hER⟩
      rw [entryRemoved, Bool.and_eq_true] at hER
      obtain ⟨h1, h2⟩ := hER
      refine ⟨e, he, h1, ?_⟩
      cases hdec : utf8Decode (zinRead zin e.filename) with
      | none =>
        rw [hdec] at h2
        simp [Option.elim] at h2
      | some s =>
        rw [hdec] at h2
        simp only [Option.elim] at h2
        exact ⟨s, rfl, by simpa using h2⟩
    · rintro ⟨e, he, h1, s, hdec, hc⟩
      refine ⟨e, he, ?_⟩
      rw [entryRemoved, h1, hdec, Bool.true_and]
      simpa [Option.elim] using hc

theorem c8_witness :
    processEntries [c78entry] [c78entry] =
      .ok [⟨wsName, utf8Encode (("<d/>").data)⟩] [removedMsgText wsName] true ∧
    (remove_excel_protection (some [c78entry]) (("o2.xlsx").data)).outcome =
      .completed true [⟨wsName, utf8Encode (("<d/>").data)⟩] ∧
    (true = true ↔ ∃ e ∈ [c78entry], startsWithL worksheetsDir e.filename = true ∧
      ∃ s, utf8Decode (zinRead [c78entry] e.filename) = some s ∧
        0 < (protection_subn s).2) := by
  have h : processEntries [c78entry] [c78entry] =
      .ok [⟨wsName, utf8Encode (("<d/>").data)⟩] [removedMsgText wsName] true := by decide
  exact ⟨h, (@c8_protection_flag [c78entry] _ _ _ (("o2.xlsx").data) h).1,
    (@c8_protection_flag [c78entry] _ _ _ (("o2.xlsx").data) h).2⟩

/-- Worksheet entry whose only element has a tag name merely beginning with the
protection tag-open literal, for C9. -/
def c9entry : ZipEntry := ⟨wsName, utf8Encode (("<sheetProtectionX a=1/>").data)⟩

/-- C9: the match is anchored only on the literal tag-open sequence with no
tag-name boundary check, so a self-closing element whose name merely begins
with the literal is removed too, and the entry is counted as affected. -/
theorem c9_lookalike_tag_removed :
    remove_excel_protection (some [c9entry]) (("out.xlsx").data) =
      ⟨.completed true [⟨wsName, []⟩],
        [removedMsgText wsName, successMsgText (("out.xlsx").data)], false⟩ := by decide

/-- C10: the transform's observable behaviour (outcome, flag, output entries
and messages) is a function of the source entry list and the destination name
only: two invocations on equal inputs produce equal results. -/
theorem c10_deterministic {z1 z2 : Option (List ZipEntry)} {d1 d2 : List Char}
    (hz : z1 = z2) (hd : d1 = d2) :
    remove_excel_protection z1 d1 = remove_excel_protection z2 d2 := by
  rw [hz, hd]

theorem c10_witness :
    (some [c6doc] = some [c6doc]) ∧
    remove_excel_protection (some [c6doc]) (("a.xlsx").data) =
      remove_excel_protection (some [c6doc]) (("a.xlsx").data) :=
  ⟨rfl, c10_deterministic rfl rfl⟩

